import Mathlib

/-!
Shallow embedding of the trajectory store of `src/md/trajectory/traj.rs`
(nyx astrodynamics), covering: `Traj::finalize`, `Traj::at` (binary search +
interpolation-window selection), the `Add` merge operator, `Traj::find_bracketed`
(Brent root solver), the post-collection phase of `Traj::find_all`, and
`Traj::find_minmax`.

Modelling conventions:
* `f64` values are modelled as `FP := Option ℚ`, where `none` stands for NaN.
  Every comparison involving `none` is `false`, matching IEEE-754 NaN
  comparison semantics.  Rational division is total (`q / 0 = 0`), whereas
  `f64` division by zero yields ±∞; this divergence is confined to
  degenerate points of the Brent iteration and no theorem below depends on it.
* `hifitime::Epoch` is modelled as a rational number of seconds; `Duration`
  likewise (epochs carry no NaN in hifitime — they are fixed-point integers).
* A Rust panic (usize underflow, `.unwrap()` on `Err`) is modelled by the
  distinguished result `TrajErr.panicked`, which is not one of the error
  values the Rust functions can *return*.
-/

/-- Model of `f64`: `none` is NaN.  (±∞ does not arise in the modelled paths
except as the initial accumulators of `find_minmax`, which are modelled
separately there.) -/
abbrev FP := Option ℚ

/-- `f64` addition (NaN-propagating). -/
def fadd : FP → FP → FP
  | some a, some b => some (a + b)
  | _, _ => none

/-- `f64` subtraction (NaN-propagating). -/
def fsub : FP → FP → FP
  | some a, some b => some (a - b)
  | _, _ => none

/-- `f64` multiplication (NaN-propagating). -/
def fmul : FP → FP → FP
  | some a, some b => some (a * b)
  | _, _ => none

/-- `f64` division (NaN-propagating).  Rational division is total
(`q / 0 = 0`) where `f64` yields ±∞; no theorem depends on the `b = 0` case. -/
def fdiv : FP → FP → FP
  | some a, some b => some (a / b)
  | _, _ => none

/-- Rational absolute value, written so that the kernel can evaluate it on
concrete inputs (definitionally equal to `|q|`, see `qabs_eq_abs`). -/
def qabs (q : ℚ) : ℚ := if q < 0 then -q else q

/-- `f64::abs` (NaN-propagating). -/
def fabs : FP → FP
  | some a => some (qabs a)
  | none => none

/-- `f64` `<=`: any comparison with NaN is `false`. -/
def fle : FP → FP → Bool
  | some a, some b => decide (a ≤ b)
  | _, _ => false

/-- `f64` `<`: any comparison with NaN is `false`. -/
def flt : FP → FP → Bool
  | some a, some b => decide (a < b)
  | _, _ => false

/-- `f64` `>`, as used by the source (`x > y`). -/
def fgt (x y : FP) : Bool := flt y x

/-- `f64` `>=`, as used by the source (`x >= y`). -/
def fge (x y : FP) : Bool := fle y x

/-- The errors producible by the trajectory code under study.
`TrajError::NoInterpolationData(Epoch)`, `TrajError::EventNotFound{start, end, event}`
and `TrajError::CreationError` are modelled from the spec (§7) since
`errors.rs` is not under `src/`; the display string of the event is omitted.
`NyxError::MaxIterReached(String)` keeps no payload.  `panicked` is not an
error value of the Rust code: it marks a Rust panic (abnormal termination). -/
inductive TrajErr where
  | noInterpolationData (epoch : ℚ)
  | eventNotFound (start stop : ℚ)
  | creationError
  | maxIterReached
  | panicked
  deriving DecidableEq, Repr

/-- The operations a state type must provide for this development:
`epoch()` from the `State` trait, `S::zeros()`, and the Hermite window
interpolation entry point `states[idx].interpolate(epoch, &window)`.

Modelled from the spec: the Hermite interpolator itself lives in
`spline.rs`/`trajectory.rs`, which are not under `src/`; per §4.2 it
reconstructs a state from the anchor, the query epoch and the window, and
no failure mode is specified for it, so it is modelled as a total function. -/
structure StateOps (S : Type) where
  epoch : S → ℚ
  zeros : S
  interp : S → ℚ → List S → S

/-- `Traj<S>`: an optional name and the stored samples
(`pub name: Option<String>, pub states: Vec<S>`). -/
structure Traj (S : Type) where
  name : Option String
  states : List S
  deriving DecidableEq

/-- Helper for `dedupByEpoch`: `kept` is the last retained element, against
which Rust's `dedup_by` compares the next candidate. -/
def dedupByEpochGo {S : Type} (ep : S → ℚ) (kept : S) : List S → List S
  | [] => []
  | b :: rest =>
    if ep b = ep kept then dedupByEpochGo ep kept rest
    else b :: dedupByEpochGo ep b rest

/-- Rust `Vec::dedup_by(|a, b| a.epoch().eq(&b.epoch()))`: removes all but the
first of *consecutive* elements with equal epochs. -/
def dedupByEpoch {S : Type} (ep : S → ℚ) : List S → List S
  | [] => []
  | a :: rest => a :: dedupByEpochGo ep a rest

/-- Helper for `dedupEq`: `kept` is the last retained element. -/
def dedupEqGo {S : Type} [DecidableEq S] (kept : S) : List S → List S
  | [] => []
  | b :: rest =>
    if b = kept then dedupEqGo kept rest
    else b :: dedupEqGo b rest

/-- Rust `Vec::dedup()`: removes all but the first of consecutive *equal*
elements. -/
def dedupEq {S : Type} [DecidableEq S] : List S → List S
  | [] => []
  | a :: rest => a :: dedupEqGo a rest

/-- Stable sort by epoch, modelling `Vec::sort_by_key(|a| a.epoch())`
(Rust's sort is stable; any stable sort by the same key yields the same
output, so insertion sort is an exact model). -/
def sortByEpoch {S : Type} (ep : S → ℚ) (l : List S) : List S :=
  List.insertionSort (fun a b => ep a ≤ ep b) l

/-- `Traj::finalize`: `dedup_by` on epochs (consecutive only), *then* the
stable sort by epoch — in this order, exactly as in the source. -/
def Traj.finalize {S : Type} (ops : StateOps S) (tr : Traj S) : Traj S :=
  { tr with states := sortByEpoch ops.epoch (dedupByEpoch ops.epoch tr.states) }

/-- `super::INTERPOLATION_SAMPLES` (= 6, cf. `InterpState::INTERPOLATION_SAMPLES`). -/
def INTERPOLATION_SAMPLES : Nat := 6

/-- Contract model of `slice::binary_search_by(|state| state.epoch().cmp(&epoch))`
on a sorted slice: `inl (idx, s)` is a hit at index `idx` holding element `s`;
`inr idx` is the insertion point.  On a strictly sorted slice both are uniquely
determined, and `countP (epoch < t)` is exactly that index. -/
def binSearch {S : Type} (ep : S → ℚ) (l : List S) (t : ℚ) : (Nat × S) ⊕ Nat :=
  match l[l.countP (fun s => decide (ep s < t))]? with
  | some s =>
    if ep s = t then Sum.inl (l.countP (fun s => decide (ep s < t)), s)
    else Sum.inr (l.countP (fun s => decide (ep s < t)))
  | none => Sum.inr (l.countP (fun s => decide (ep s < t)))

/-- The interpolation window `self.states[first_idx..last_idx]`. -/
def windowSlice {S : Type} (l : List S) (a b : Nat) : List S :=
  (l.drop a).take (b - a)

/-- `Traj::at`: range check, binary search, exact-hit shortcut, and the
interpolation-window selection.  `first_idx.saturating_sub(num_left)` is Nat
subtraction; the plain usize subtraction `last_idx - 2 * num_left` panics on
underflow, modelled by `TrajErr.panicked`. -/
def Traj.at {S : Type} (ops : StateOps S) (tr : Traj S) (t : ℚ) : Except TrajErr S :=
  match tr.states with
  | [] => .error (.noInterpolationData t)
  | s0 :: _ =>
    if decide (t < ops.epoch s0) || decide (ops.epoch (tr.states.getLastD s0) < t) then
      .error (.noInterpolationData t)
    else
      match binSearch ops.epoch tr.states t with
      | .inl (_, s) => .ok s
      | .inr idx =>
        if idx = 0 || decide (tr.states.length ≤ idx) then
          .error (.noInterpolationData t)
        else
          match tr.states[idx]? with
          | none => .error .panicked
          | some anchor =>
            let numLeft := INTERPOLATION_SAMPLES / 2
            let firstIdx := idx - numLeft
            let lastIdx := min tr.states.length (firstIdx + INTERPOLATION_SAMPLES)
            if lastIdx = tr.states.length then
              if lastIdx < 2 * numLeft then .error .panicked
              else .ok (ops.interp anchor t (windowSlice tr.states (lastIdx - 2 * numLeft) lastIdx))
            else .ok (ops.interp anchor t (windowSlice tr.states firstIdx lastIdx))

/-- The `Add` merge operator (`impl ops::Add<&Traj<S>> for Traj<S>`): picks
`second` by comparing the two first epochs, then — as in the source — clones
`self` (not `first`!), appends `second`'s states and re-finalizes.  The gap
warning is a log line with no effect on the result; `first()` on an empty
trajectory panics in Rust, so the head defaults below only stand in for
inputs the Rust code aborts on. -/
def Traj.addT {S : Type} (ops : StateOps S) (self other : Traj S) : Traj S :=
  let second :=
    if decide (ops.epoch (self.states.headD ops.zeros) < ops.epoch (other.states.headD ops.zeros))
    then other else self
  Traj.finalize ops { name := self.name, states := self.states ++ second.states }

/-- Concrete sample type used for witnesses and counterexamples: an epoch
tag plus one payload component (stands for a state vector). -/
structure WS where
  t : ℚ
  v : ℚ
  deriving DecidableEq, Repr

/-- `StateOps` for `WS`: the interpolation result is irrelevant to every
claim below; it tags the reconstructed sample with the query epoch. -/
def wsOps : StateOps WS :=
  { epoch := WS.t
    zeros := ⟨0, 0⟩
    interp := fun _anchor t _window => ⟨t, 0⟩ }

/-- Appended samples whose duplicate epochs (0 s) are *not* adjacent. -/
def dupTraj : Traj WS := ⟨none, [⟨0, 1⟩, ⟨1, 2⟩, ⟨0, 3⟩]⟩

/-- C3: `finalize()` on appends at epochs 0 s, 1 s, 0 s (a non-adjacent
equal-epoch pair) leaves *two* samples at epoch 0: `dedup_by` runs before the
sort and only removes consecutive duplicates, so the stored sequence is not
strictly increasing and more than one representative of epoch 0 is kept. -/
theorem C3_dedup_fails :
    (Traj.finalize wsOps dupTraj).states = [⟨0, 1⟩, ⟨0, 3⟩, ⟨1, 2⟩] ∧
      ¬ (Traj.finalize wsOps dupTraj).states.Pairwise (fun a b => wsOps.epoch a < wsOps.epoch b) := by
  constructor
  · rfl
  · decide

/-- C4: `finalize()` is not idempotent: on the same appends, one call yields
`[0 s, 0 s, 1 s]` (duplicate epochs kept) while a second call — now seeing the
duplicates adjacent after the sort — collapses them to `[0 s, 1 s]`. -/
theorem C4_finalize_not_idempotent :
    (Traj.finalize wsOps dupTraj).states = [⟨0, 1⟩, ⟨0, 3⟩, ⟨1, 2⟩] ∧
      (Traj.finalize wsOps (Traj.finalize wsOps dupTraj)).states = [⟨0, 1⟩, ⟨1, 2⟩] ∧
      Traj.finalize wsOps (Traj.finalize wsOps dupTraj) ≠ Traj.finalize wsOps dupTraj := by
  refine ⟨rfl, rfl, ?_⟩
  decide

/-- Trajectory A, spanning 20 s – 30 s. -/
def mergeA : Traj WS := ⟨none, [⟨20, 1⟩, ⟨30, 2⟩]⟩

/-- Trajectory B, spanning 0 s – 10 s (starts earlier than A). -/
def mergeB : Traj WS := ⟨none, [⟨0, 3⟩, ⟨10, 4⟩]⟩

/-- C5: merging `A + B` where B starts earlier than A: the source clones
`self` (= A) and then appends `second` — which is also A, since A is the later
trajectory — so B's samples are dropped entirely and A's are duplicated; the
result has 4 states, none of them B's, instead of the 4 distinct-epoch merged
samples the claim requires. -/
theorem C5_merge_drops_earlier_operand :
    (Traj.addT wsOps mergeA mergeB).states = [⟨20, 1⟩, ⟨20, 1⟩, ⟨30, 2⟩, ⟨30, 2⟩] ∧
      (⟨0, 3⟩ : WS) ∉ (Traj.addT wsOps mergeA mergeB).states ∧
      (⟨10, 4⟩ : WS) ∉ (Traj.addT wsOps mergeA mergeB).states := by
  refine ⟨rfl, ?_, ?_⟩ <;> decide

/-- A finalized trajectory with only two stored samples (< `INTERPOLATION_SAMPLES`). -/
def shortTraj : Traj WS := ⟨none, [⟨0, 1⟩, ⟨10, 2⟩]⟩

/-- C9: on a finalized 2-sample store, the in-range non-exact query `at(5 s)`
reaches the window arithmetic with `last_idx = 2` and computes
`first_idx = last_idx - 2 * num_left = 2 - 6` on `usize`, which underflows
(a panic in debug builds): the window selection is not well-defined for
stores with fewer than `INTERPOLATION_SAMPLES` samples. -/
theorem C9_window_underflow :
    Traj.at wsOps shortTraj 5 = .error .panicked := by rfl

/-- On a strictly epoch-sorted list, looking up a member at the index
`countP (epoch < its epoch)` recovers exactly that member. -/
theorem getElem_countP_of_sorted {S : Type} (ep : S → ℚ) :
    ∀ (l : List S), l.Pairwise (fun a b => ep a < ep b) → ∀ s ∈ l,
      l[l.countP (fun x => decide (ep x < ep s))]? = some s := by
  intro l
  induction l with
  | nil => intro _ s hm; cases hm
  | cons a rest ih =>
    intro hp s hm
    rcases List.pairwise_cons.mp hp with ⟨ha, hrest⟩
    rcases List.mem_cons.mp hm with hsa | hs
    · subst hsa
      have hz : rest.countP (fun x => decide (ep x < ep s)) = 0 := by
        apply List.countP_eq_zero.mpr
        intro x hx
        simp only [decide_eq_true_eq]
        exact not_lt.mpr (le_of_lt (ha x hx))
      have hc : (s :: rest).countP (fun x => decide (ep x < ep s)) = 0 := by
        rw [List.countP_cons]
        simp [hz]
      rw [hc]
      simp
    · have hlt : ep a < ep s := ha s hs
      have hc : (a :: rest).countP (fun x => decide (ep x < ep s)) =
          rest.countP (fun x => decide (ep x < ep s)) + 1 := by
        rw [List.countP_cons]
        simp [hlt]
      rw [hc]
      simpa using ih hrest s hs

/-- On a strictly epoch-sorted list, `binary_search_by` hits every stored
member exactly. -/
theorem binSearch_hit_of_mem {S : Type} (ep : S → ℚ) (l : List S)
    (hp : l.Pairwise (fun a b => ep a < ep b)) (s : S) (hm : s ∈ l) :
    binSearch ep l (ep s) = Sum.inl (l.countP (fun x => decide (ep x < ep s)), s) := by
  unfold binSearch
  rw [getElem_countP_of_sorted ep l hp s hm]
  simp

/-- `binSearch` at an epoch no member carries always misses. -/
theorem binSearch_miss {S : Type} (ep : S → ℚ) (l : List S) (t : ℚ)
    (h : ∀ s ∈ l, ep s ≠ t) :
    binSearch ep l t = Sum.inr (l.countP (fun s => decide (ep s < t))) := by
  unfold binSearch
  cases hx : l[l.countP (fun s => decide (ep s < t))]? with
  | none => rfl
  | some s =>
    have hmem : s ∈ l := by
      have := List.getElem?_mem hx
      exact this
    simp [h s hmem]

/-- The head of a sorted list bounds every member from below. -/
theorem head_epoch_le_of_sorted_mem {S : Type} (ep : S → ℚ) (s0 : S) (rest : List S)
    (hp : (s0 :: rest).Pairwise (fun a b => ep a < ep b)) (s : S) (hm : s ∈ s0 :: rest) :
    ep s0 ≤ ep s := by
  rcases List.pairwise_cons.mp hp with ⟨ha, _⟩
  rcases List.mem_cons.mp hm with h | h
  · exact le_of_eq (by rw [h])
  · exact le_of_lt (ha s h)

/-- `getLastD` of a nonempty list is a member (regardless of the default). -/
theorem getLastD_mem_cons {S : Type} : ∀ (rest : List S) (a d : S),
    (a :: rest).getLastD d ∈ a :: rest := by
  intro rest
  induction rest with
  | nil => intro a d; simp [List.getLastD]
  | cons b t ih =>
    intro a d
    have h1 : (b :: t).getLastD a ∈ b :: t := ih b a
    have h2 : (a :: b :: t).getLastD d = (b :: t).getLastD a := by
      simp [List.getLastD]
    rw [h2]
    exact List.mem_cons_of_mem a h1

/-- The `getLastD` of a nonempty list does not depend on the default. -/
theorem getLastD_cons_eq {S : Type} (a : S) (l : List S) (d d' : S) :
    (a :: l).getLastD d = (a :: l).getLastD d' := by
  cases l <;> simp [List.getLastD]

/-- The last element of a sorted list bounds every member from above. -/
theorem epoch_le_getLastD_of_sorted_mem {S : Type} (ep : S → ℚ) :
    ∀ (l : List S) (d : S), l.Pairwise (fun a b => ep a < ep b) → ∀ s ∈ l,
      ep s ≤ ep (l.getLastD d) := by
  intro l
  induction l with
  | nil => intro d _ s hm; cases hm
  | cons a rest ih =>
    intro d hp s hm
    rcases List.pairwise_cons.mp hp with ⟨ha, hrest⟩
    cases rest with
    | nil =>
      rcases List.mem_cons.mp hm with h | h
      · subst h; simp [List.getLastD]
      · cases h
    | cons b t =>
      have hlast : (a :: b :: t).getLastD d = (b :: t).getLastD a := by
        simp [List.getLastD]
      rw [hlast]
      rcases List.mem_cons.mp hm with h | h
      · subst h
        have hb : (b :: t).getLastD s ∈ b :: t := getLastD_mem_cons t b s
        exact le_of_lt (ha _ hb)
      · exact ih a hrest s h

/-- On a strictly epoch-sorted store, `at` at a stored sample's epoch is a
binary-search hit returning that sample (shared helper). -/
theorem at_hit_aux {S : Type} (ops : StateOps S) (tr : Traj S)
    (hp : tr.states.Pairwise (fun a b => ops.epoch a < ops.epoch b))
    (s : S) (hm : s ∈ tr.states) :
    Traj.at ops tr (ops.epoch s) = .ok s := by
  obtain ⟨nm, sts⟩ := tr
  cases sts with
  | nil => cases hm
  | cons s0 rest =>
    have hlo : ops.epoch s0 ≤ ops.epoch s :=
      head_epoch_le_of_sorted_mem ops.epoch s0 rest hp s hm
    have hhi : ops.epoch s ≤ ops.epoch ((s0 :: rest).getLastD s0) :=
      epoch_le_getLastD_of_sorted_mem ops.epoch (s0 :: rest) s0 hp s hm
    have g1 : decide (ops.epoch s < ops.epoch s0) = false :=
      decide_eq_false (not_lt.mpr hlo)
    have g2 : decide (ops.epoch ((s0 :: rest).getLastD s0) < ops.epoch s) = false :=
      decide_eq_false (not_lt.mpr hhi)
    have hb := binSearch_hit_of_mem ops.epoch (s0 :: rest) hp s hm
    simp only [Traj.at, g1, g2, Bool.or_self, hb]
    simp

/-- C1: on a finalized (strictly epoch-sorted) trajectory, `at` at the epoch
of any stored sample is an exact binary-search hit and returns that very
sample, with no interpolation involved. -/
theorem C1_exact_hit {S : Type} (ops : StateOps S) (tr : Traj S)
    (hp : tr.states.Pairwise (fun a b => ops.epoch a < ops.epoch b))
    (s : S) (hm : s ∈ tr.states) :
    Traj.at ops tr (ops.epoch s) = .ok s :=
  at_hit_aux ops tr hp s hm

/-- A finalized six-sample trajectory (epochs 0 s .. 5 s). -/
def sixTraj : Traj WS :=
  ⟨none, [⟨0, 10⟩, ⟨1, 11⟩, ⟨2, 12⟩, ⟨3, 13⟩, ⟨4, 14⟩, ⟨5, 15⟩]⟩

/-- Witness for C1: the stored sample at epoch 2 s of the concrete six-sample
trajectory is returned exactly. -/
theorem C1_exact_hit_witness :
    sixTraj.states.Pairwise (fun a b => wsOps.epoch a < wsOps.epoch b) ∧
      Traj.at wsOps sixTraj (wsOps.epoch ⟨2, 12⟩) = .ok ⟨2, 12⟩ :=
  ⟨by decide, C1_exact_hit wsOps sixTraj (by decide) ⟨2, 12⟩ (by decide)⟩

/-- Shape of `at` for any in-range query on a sorted nonempty store: an exact
hit, a window interpolation, or — only when the store holds fewer than
`INTERPOLATION_SAMPLES` samples — the usize-underflow panic.  In particular
`NoInterpolationData` is never produced in range: the defensive boundary
branch is unreachable. -/
theorem at_in_range_shape {S : Type} (ops : StateOps S) (nm : Option String)
    (s0 : S) (rest : List S)
    (hp : (s0 :: rest).Pairwise (fun a b => ops.epoch a < ops.epoch b))
    (t : ℚ) (hlo : ¬ t < ops.epoch s0)
    (hhi : ¬ ops.epoch ((s0 :: rest).getLastD s0) < t) :
    (∃ s ∈ s0 :: rest, Traj.at ops ⟨nm, s0 :: rest⟩ t = .ok s ∧ ops.epoch s = t) ∨
    (∃ anchor w, Traj.at ops ⟨nm, s0 :: rest⟩ t = .ok (ops.interp anchor t w)) ∨
    (Traj.at ops ⟨nm, s0 :: rest⟩ t = .error .panicked ∧ (s0 :: rest).length < INTERPOLATION_SAMPLES) := by
  by_cases hex : ∃ s ∈ s0 :: rest, ops.epoch s = t
  · obtain ⟨s, hsm, hst⟩ := hex
    left
    refine ⟨s, hsm, ?_, hst⟩
    have := at_hit_aux ops ⟨nm, s0 :: rest⟩ hp s hsm
    rwa [hst] at this
  · push_neg at hex
    have hb := binSearch_miss ops.epoch (s0 :: rest) t hex
    have hlo' : ops.epoch s0 < t :=
      lt_of_le_of_ne (not_lt.mp hlo) (hex s0 (List.mem_cons_self s0 rest))
    have hhi' : t < ops.epoch ((s0 :: rest).getLastD s0) := by
      have hmem := getLastD_mem_cons rest s0 s0
      exact lt_of_le_of_ne (not_lt.mp hhi) (fun h => hex _ hmem h.symm)
    have hk1 : 0 < (s0 :: rest).countP (fun s => decide (ops.epoch s < t)) := by
      apply List.countP_pos_iff.mpr
      exact ⟨s0, List.mem_cons_self s0 rest, by simpa using hlo'⟩
    have hklen : (s0 :: rest).countP (fun s => decide (ops.epoch s < t)) < (s0 :: rest).length := by
      rcases lt_or_eq_of_le (List.countP_le_length _) with h | h
      · exact h
      · exfalso
        have hall := List.countP_eq_length.mp h
        have := hall _ (getLastD_mem_cons rest s0 s0)
        simp only [decide_eq_true_eq] at this
        exact absurd this (not_lt.mpr (le_of_lt hhi'))
    have g1 : decide (t < ops.epoch s0) = false := decide_eq_false hlo
    have g2 : decide (ops.epoch ((s0 :: rest).getLastD s0) < t) = false := decide_eq_false hhi
    have gk : (((s0 :: rest).countP (fun s => decide (ops.epoch s < t))) = 0 ||
        decide ((s0 :: rest).length ≤ (s0 :: rest).countP (fun s => decide (ops.epoch s < t)))) = false := by
      simp only [Bool.or_eq_false_iff, decide_eq_false_iff_not, not_le]
      exact ⟨by omega, hklen⟩
    have hsome : (s0 :: rest)[(s0 :: rest).countP (fun s => decide (ops.epoch s < t))]? =
        some ((s0 :: rest).get ⟨_, hklen⟩) := List.getElem?_eq_getElem hklen
    simp only [Traj.at, g1, g2, Bool.or_self, hb, gk, hsome, Bool.false_eq_true, if_false]
    split_ifs with hL hU
    · right; right
      refine ⟨rfl, ?_⟩
      simp only [INTERPOLATION_SAMPLES] at hL hU ⊢
      omega
    · right; left
      exact ⟨_, _, rfl⟩
    · right; left
      exact ⟨_, _, rfl⟩

/-- With at least `INTERPOLATION_SAMPLES` stored samples, `at` succeeds on
every in-range epoch (the window arithmetic cannot underflow). -/
theorem at_total {S : Type} (ops : StateOps S) (nm : Option String)
    (s0 : S) (rest : List S)
    (hp : (s0 :: rest).Pairwise (fun a b => ops.epoch a < ops.epoch b))
    (h6 : INTERPOLATION_SAMPLES ≤ (s0 :: rest).length)
    (t : ℚ) (hlo : ops.epoch s0 ≤ t)
    (hhi : t ≤ ops.epoch ((s0 :: rest).getLastD s0)) :
    ∃ s, Traj.at ops ⟨nm, s0 :: rest⟩ t = .ok s := by
  rcases at_in_range_shape ops nm s0 rest hp t (not_lt.mpr hlo) (not_lt.mpr hhi) with
    ⟨s, _, heq, _⟩ | ⟨a, w, heq⟩ | ⟨_, hlen⟩
  · exact ⟨s, heq⟩
  · exact ⟨_, heq⟩
  · omega

/-- C2: on a finalized (strictly epoch-sorted) trajectory, `at(epoch)` returns
`NoInterpolationData` exactly when the store is empty or the epoch lies
strictly outside `[first().epoch(), last().epoch()]`; in range, the defensive
boundary branch is unreachable and no `NoInterpolationData` is produced. -/
theorem C2_noInterpolationData_iff {S : Type} (ops : StateOps S) (tr : Traj S)
    (hp : tr.states.Pairwise (fun a b => ops.epoch a < ops.epoch b)) (t : ℚ) :
    Traj.at ops tr t = .error (.noInterpolationData t) ↔
      (tr.states = [] ∨ t < ops.epoch (tr.states.headD ops.zeros) ∨
        ops.epoch (tr.states.getLastD ops.zeros) < t) := by
  obtain ⟨nm, sts⟩ := tr
  cases sts with
  | nil => simp [Traj.at]
  | cons s0 rest =>
    have hdflt : (s0 :: rest).getLastD ops.zeros = (s0 :: rest).getLastD s0 :=
      getLastD_cons_eq s0 rest ops.zeros s0
    constructor
    · intro h
      by_contra hc
      push_neg at hc
      obtain ⟨_, hlo, hhi⟩ := hc
      simp only [List.headD_cons] at hlo
      rw [hdflt] at hhi
      rcases at_in_range_shape ops nm s0 rest hp t (not_lt.mpr hlo) (not_lt.mpr hhi) with
        ⟨s, _, heq, _⟩ | ⟨a, w, heq⟩ | ⟨heq, _⟩
      · exact absurd (heq.symm.trans h) (by simp)
      · exact absurd (heq.symm.trans h) (by simp)
      · have := heq.symm.trans h
        simp at this
    · intro h
      rcases h with h | h | h
      · cases h
      · simp only [List.headD_cons] at h
        have g : (decide (t < ops.epoch s0) ||
            decide (ops.epoch ((s0 :: rest).getLastD s0) < t)) = true := by
          simp only [Bool.or_eq_true, decide_eq_true_eq]
          exact Or.inl h
        simp only [Traj.at, g]
        simp
      · rw [hdflt] at h
        have g : (decide (t < ops.epoch s0) ||
            decide (ops.epoch ((s0 :: rest).getLastD s0) < t)) = true := by
          simp only [Bool.or_eq_true, decide_eq_true_eq]
          exact Or.inr h
        simp only [Traj.at, g]
        simp

/-- Witness for C2, forward side at a concrete out-of-range epoch and
backward side at a concrete in-range one: `at(7 s)` on the six-sample store
is `NoInterpolationData`, and `at(2 s)` is not. -/
theorem C2_noInterpolationData_iff_witness :
    sixTraj.states.Pairwise (fun a b => wsOps.epoch a < wsOps.epoch b) ∧
      Traj.at wsOps sixTraj 7 = .error (.noInterpolationData 7) ∧
      ¬ Traj.at wsOps sixTraj 2 = .error (.noInterpolationData 2) :=
  ⟨by decide,
   (C2_noInterpolationData_iff wsOps sixTraj (by decide) 7).mpr (by decide),
   fun h => by
     have := (C2_noInterpolationData_iff wsOps sixTraj (by decide) 2).mp h
     exact absurd this (by decide)⟩

/-- The post-collection phase of `Traj::find_all` (traj.rs lines 365-371):
`states.sort_by(partial_cmp on epochs)` (total on hifitime epochs) followed by
`states.dedup()`, then `Ok(states)`.  The `collected` argument stands for the
channel contents gathered from the parallel per-sub-interval searches, in
whatever order the scheduler completed them. -/
def findAllFinish {S : Type} [DecidableEq S] (ops : StateOps S) (collected : List S) :
    Except TrajErr (List S) :=
  .ok (dedupEq (sortByEpoch ops.epoch collected))

/-- Members of `dedupEqGo` come from the input list. -/
theorem mem_of_mem_dedupEqGo {S : Type} [DecidableEq S] :
    ∀ (l : List S) (kept x : S), x ∈ dedupEqGo kept l → x ∈ l := by
  intro l
  induction l with
  | nil => intro kept x hx; cases hx
  | cons b rest ih =>
    intro kept x hx
    by_cases hb : b = kept
    · simp only [dedupEqGo, if_pos hb] at hx
      exact List.mem_cons_of_mem b (ih kept x hx)
    · simp only [dedupEqGo, if_neg hb] at hx
      rcases List.mem_cons.mp hx with h | h
      · exact h ▸ List.mem_cons_self b rest
      · exact List.mem_cons_of_mem b (ih b x h)

/-- On a non-decreasing epoch-sorted list whose elements are determined by
their epochs, `dedupEqGo` yields a strictly increasing list above `kept`. -/
theorem dedupEqGo_strict {S : Type} [DecidableEq S] (ep : S → ℚ) :
    ∀ (l : List S) (kept : S),
      l.Pairwise (fun a b => ep a ≤ ep b) →
      (∀ b ∈ l, ep kept ≤ ep b) →
      (∀ a b : S, (a = kept ∨ a ∈ l) → (b = kept ∨ b ∈ l) → ep a = ep b → a = b) →
      (∀ x ∈ dedupEqGo kept l, ep kept < ep x) ∧
        (dedupEqGo kept l).Pairwise (fun a b => ep a < ep b) := by
  intro l
  induction l with
  | nil => intro kept _ _ _; exact ⟨fun x hx => absurd hx (List.not_mem_nil x), List.Pairwise.nil⟩
  | cons b rest ih =>
    intro kept hp hbound hdet
    rcases List.pairwise_cons.mp hp with ⟨hb, hrest⟩
    by_cases hbk : b = kept
    · simp only [dedupEqGo, if_pos hbk]
      apply ih kept hrest
      · intro x hx; exact hbound x (List.mem_cons_of_mem b hx)
      · intro a c ha hc
        apply hdet a c
        · rcases ha with h | h
          · exact Or.inl h
          · exact Or.inr (List.mem_cons_of_mem b h)
        · rcases hc with h | h
          · exact Or.inl h
          · exact Or.inr (List.mem_cons_of_mem b h)
    · have hkb : ep kept < ep b := by
        rcases lt_or_eq_of_le (hbound b (List.mem_cons_self b rest)) with h | h
        · exact h
        · exact absurd (hdet b kept (Or.inr (List.mem_cons_self b rest)) (Or.inl rfl) h.symm) hbk
      simp only [dedupEqGo, if_neg hbk]
      have hih := ih b hrest hb (by
        intro a c ha hc
        apply hdet a c
        · rcases ha with h | h
          · exact Or.inr (h ▸ List.mem_cons_self b rest)
          · exact Or.inr (List.mem_cons_of_mem b h)
        · rcases hc with h | h
          · exact Or.inr (h ▸ List.mem_cons_self b rest)
          · exact Or.inr (List.mem_cons_of_mem b h))
      constructor
      · intro x hx
        rcases List.mem_cons.mp hx with h | h
        · exact h ▸ hkb
        · exact lt_trans hkb (hih.1 x h)
      · exact List.pairwise_cons.mpr ⟨hih.1, hih.2⟩

/-- On a non-decreasing epoch-sorted list whose elements are determined by
their epochs, `dedupEq` yields a strictly epoch-increasing list. -/
theorem dedupEq_strict {S : Type} [DecidableEq S] (ep : S → ℚ) (l : List S)
    (hp : l.Pairwise (fun a b => ep a ≤ ep b))
    (hdet : ∀ a ∈ l, ∀ b ∈ l, ep a = ep b → a = b) :
    (dedupEq l).Pairwise (fun a b => ep a < ep b) := by
  cases l with
  | nil => exact List.Pairwise.nil
  | cons a rest =>
    rcases List.pairwise_cons.mp hp with ⟨ha, hrest⟩
    have hgo := dedupEqGo_strict ep rest a hrest ha (by
      intro x y hx hy hxy
      have hx' : x ∈ a :: rest := by
        rcases hx with h | h
        · exact h ▸ List.mem_cons_self a rest
        · exact List.mem_cons_of_mem a h
      have hy' : y ∈ a :: rest := by
        rcases hy with h | h
        · exact h ▸ List.mem_cons_self a rest
        · exact List.mem_cons_of_mem a h
      exact hdet x hx' y hy' hxy)
    exact List.pairwise_cons.mpr ⟨hgo.1, hgo.2⟩

/-- C8: whatever order the parallel sub-interval searches completed in, the
post-collection phase of `find_all` returns a list sorted in strictly
ascending epoch order with no duplicate entries.  The determinedness
hypothesis holds for the code's inputs: every collected state is the value of
the deterministic `at()` at its own epoch (a `find_bracketed` success), so
equal epochs imply equal states. -/
theorem C8_find_all_sorted_nodup {S : Type} [DecidableEq S] (ops : StateOps S)
    (collected : List S)
    (hdet : ∀ a ∈ collected, ∀ b ∈ collected, ops.epoch a = ops.epoch b → a = b)
    (out : List S) (hout : findAllFinish ops collected = .ok out) :
    out.Pairwise (fun a b => ops.epoch a < ops.epoch b) ∧ out.Nodup := by
  have hout' : out = dedupEq (sortByEpoch ops.epoch collected) := by
    simpa [findAllFinish] using hout.symm
  subst hout'
  haveI : IsTotal S (fun a b => ops.epoch a ≤ ops.epoch b) :=
    ⟨fun a b => le_total (ops.epoch a) (ops.epoch b)⟩
  haveI : IsTrans S (fun a b => ops.epoch a ≤ ops.epoch b) :=
    ⟨fun _ _ _ hab hbc => le_trans hab hbc⟩
  have hsorted : (sortByEpoch ops.epoch collected).Pairwise
      (fun a b => ops.epoch a ≤ ops.epoch b) :=
    List.sorted_insertionSort _ collected
  have hperm : (sortByEpoch ops.epoch collected).Perm collected :=
    List.perm_insertionSort _ collected
  have hdet' : ∀ a ∈ sortByEpoch ops.epoch collected,
      ∀ b ∈ sortByEpoch ops.epoch collected, ops.epoch a = ops.epoch b → a = b := by
    intro a ha b hb
    exact hdet a (hperm.mem_iff.mp ha) b (hperm.mem_iff.mp hb)
  have hstrict := dedupEq_strict ops.epoch (sortByEpoch ops.epoch collected) hsorted hdet'
  refine ⟨hstrict, ?_⟩
  exact List.Pairwise.imp (fun {a b} hab => fun hEq => absurd (hEq ▸ hab) (lt_irrefl _)) hstrict

/-- Collected event states in an arbitrary (scheduler-dependent) completion
order, with one duplicated entry. -/
def collectedW : List WS := [⟨2, 5⟩, ⟨1, 4⟩, ⟨2, 5⟩]

/-- Witness for C8: the post-collection phase on a concrete unsorted,
duplicate-carrying collection yields a strictly sorted, duplicate-free list. -/
theorem C8_find_all_sorted_nodup_witness :
    (∀ a ∈ collectedW, ∀ b ∈ collectedW, wsOps.epoch a = wsOps.epoch b → a = b) ∧
      (([⟨1, 4⟩, ⟨2, 5⟩] : List WS).Pairwise (fun a b => wsOps.epoch a < wsOps.epoch b) ∧
        ([⟨1, 4⟩, ⟨2, 5⟩] : List WS).Nodup) :=
  ⟨by decide, C8_find_all_sorted_nodup wsOps collectedW (by decide) [⟨1, 4⟩, ⟨2, 5⟩] rfl⟩

/-- The data-parallel evaluation phase of `Traj::find_minmax`: for every
epoch of the step grid, `self.at(epoch).unwrap()` (a panic — modelled
`panicked` — if `at` fails) paired with `event.eval(&state)`.  The grid
argument models `TimeSeries::inclusive(first, last, step)`, whose
implementation is not under `src/`; per the spec (§4.4) it enumerates epochs
of the stored span, all within `[first, last]`. -/
def evalGrid {S : Type} (ops : StateOps S) (tr : Traj S) (ev : S → FP) :
    List ℚ → Except TrajErr (List (FP × S))
  | [] => .ok []
  | e :: rest =>
    match Traj.at ops tr e with
    | .ok st =>
      match evalGrid ops tr ev rest with
      | .ok ps => .ok ((ev st, st) :: ps)
      | .error er => .error er
    | .error _ => .error .panicked

/-- One accumulation step of `find_minmax`'s min/max scan.  The accumulator
components `none` stand for the initial `std::f64::INFINITY` /
`NEG_INFINITY`; since `min_val`/`max_val` are only ever assigned from an
evaluation that won a comparison, they can never hold NaN, so `Option ℚ` is
exact.  A NaN evaluation (`none`) fails both `<` comparisons and never
updates either accumulator, as in IEEE-754. -/
def mmStep {S : Type} (acc : (Option ℚ × S) × (Option ℚ × S)) (p : FP × S) :
    (Option ℚ × S) × (Option ℚ × S) :=
  match p with
  | (none, _) => acc
  | (some q, st) =>
    let mn := if (match acc.1.1 with | none => true | some m => decide (q < m))
              then (some q, st) else acc.1
    let mx := if (match acc.2.1 with | none => true | some m => decide (m < q))
              then (some q, st) else acc.2
    (mn, mx)

/-- `Traj::find_minmax`: evaluate the event over the step grid (in parallel
in the source; the scan of min/max below is order-insensitive in every
property proved), starting from `(INFINITY, S::zeros())` and
`(NEG_INFINITY, S::zeros())`, and return `Ok((min_state, max_state))` —
the function has no error return. -/
def Traj.findMinmax {S : Type} (ops : StateOps S) (tr : Traj S) (ev : S → FP)
    (grid : List ℚ) : Except TrajErr (S × S) :=
  match evalGrid ops tr ev grid with
  | .error er => .error er
  | .ok pairs =>
    let res := pairs.foldl mmStep ((none, ops.zeros), (none, ops.zeros))
    .ok (res.1.2, res.2.2)

/-- If `at` succeeds on every grid epoch, the evaluation phase succeeds and
every produced pair is an `at`-value with its event evaluation. -/
theorem evalGrid_ok {S : Type} (ops : StateOps S) (tr : Traj S) (ev : S → FP) :
    ∀ grid : List ℚ,
      (∀ e ∈ grid, ∃ s, Traj.at ops tr e = .ok s) →
      ∃ ps, evalGrid ops tr ev grid = .ok ps ∧
        ∀ p ∈ ps, ∃ e ∈ grid, Traj.at ops tr e = .ok p.2 ∧ p.1 = ev p.2 := by
  intro grid
  induction grid with
  | nil => intro _; exact ⟨[], rfl, fun p hp => absurd hp (List.not_mem_nil p)⟩
  | cons e rest ih =>
    intro h
    obtain ⟨s, hs⟩ := h e (List.mem_cons_self e rest)
    obtain ⟨ps, hps, hprop⟩ := ih (fun x hx => h x (List.mem_cons_of_mem e hx))
    refine ⟨(ev s, s) :: ps, ?_, ?_⟩
    · simp only [evalGrid, hs, hps]
    · intro p hp
      rcases List.mem_cons.mp hp with h' | h'
      · exact ⟨e, List.mem_cons_self e rest, by rw [h']; exact hs, by rw [h']⟩
      · obtain ⟨x, hx, hx2⟩ := hprop p h'
        exact ⟨x, List.mem_cons_of_mem e hx, hx2⟩

/-- A fold over only-NaN evaluations leaves the accumulator untouched. -/
theorem foldl_mmStep_all_nan {S : Type} :
    ∀ (ps : List (FP × S)) (acc : (Option ℚ × S) × (Option ℚ × S)),
      (∀ p ∈ ps, p.1 = (none : FP)) → ps.foldl mmStep acc = acc := by
  intro ps
  induction ps with
  | nil => intro acc _; rfl
  | cons p rest ih =>
    intro acc h
    obtain ⟨v, st⟩ := p
    have hv : v = none := h (v, st) (List.mem_cons_self _ rest)
    subst hv
    simpa [List.foldl_cons, mmStep] using
      ih acc (fun q hq => h q (List.mem_cons_of_mem _ hq))

/-- C10: `find_minmax` never returns an error on a finalized trajectory with
at least `INTERPOLATION_SAMPLES` samples and an in-range step grid — its only
return statement is `Ok((min_state, max_state))` — and when every event
evaluation over the grid is NaN (so no value compares below `INFINITY` or
above `NEG_INFINITY`), it returns the zero-initialized defaults
`(S::zeros(), S::zeros())` rather than reporting any failure. -/
theorem C10_find_minmax_total {S : Type} (ops : StateOps S) (nm : Option String)
    (s0 : S) (rest : List S)
    (hp : (s0 :: rest).Pairwise (fun a b => ops.epoch a < ops.epoch b))
    (h6 : INTERPOLATION_SAMPLES ≤ (s0 :: rest).length)
    (ev : S → FP) (grid : List ℚ)
    (hgrid : ∀ e ∈ grid, ops.epoch s0 ≤ e ∧ e ≤ ops.epoch ((s0 :: rest).getLastD s0)) :
    (∃ mm, Traj.findMinmax ops ⟨nm, s0 :: rest⟩ ev grid = .ok mm) ∧
      ((∀ e ∈ grid, ∀ st, Traj.at ops ⟨nm, s0 :: rest⟩ e = .ok st → ev st = none) →
        Traj.findMinmax ops ⟨nm, s0 :: rest⟩ ev grid = .ok (ops.zeros, ops.zeros)) := by
  have htot : ∀ e ∈ grid, ∃ s, Traj.at ops ⟨nm, s0 :: rest⟩ e = .ok s := by
    intro e he
    exact at_total ops nm s0 rest hp h6 e (hgrid e he).1 (hgrid e he).2
  obtain ⟨ps, hps, hprop⟩ := evalGrid_ok ops ⟨nm, s0 :: rest⟩ ev grid htot
  constructor
  · refine ⟨((ps.foldl mmStep ((none, ops.zeros), (none, ops.zeros))).1.2,
        (ps.foldl mmStep ((none, ops.zeros), (none, ops.zeros))).2.2), ?_⟩
    simp only [Traj.findMinmax, hps]
  · intro hnan
    have hallnan : ∀ p ∈ ps, p.1 = (none : FP) := by
      intro p hp'
      obtain ⟨e, he, hat, hv⟩ := hprop p hp'
      rw [hv]
      exact hnan e he p.2 hat
    simp only [Traj.findMinmax, hps, foldl_mmStep_all_nan ps _ hallnan]

/-- Witness for C10: on the concrete six-sample trajectory with an event
whose every evaluation is NaN and a concrete in-range grid, `find_minmax`
returns `Ok((zeros, zeros))`. -/
theorem C10_find_minmax_total_witness :
    ([(0 : ℚ), 1, 5].all (fun e => decide ((0 : ℚ) ≤ e) && decide (e ≤ 5)) = true) ∧
      Traj.findMinmax wsOps sixTraj (fun _ => none) [0, 1, 5] =
        .ok (wsOps.zeros, wsOps.zeros) := by
  refine ⟨by decide, ?_⟩
  have h := C10_find_minmax_total wsOps none ⟨0, 10⟩
    [⟨1, 11⟩, ⟨2, 12⟩, ⟨3, 13⟩, ⟨4, 14⟩, ⟨5, 15⟩] (by decide) (by decide)
    (fun _ => none) [0, 1, 5] (by decide)
  exact h.2 (fun _ _ _ _ => rfl)

/-- `f64::EPSILON` = 2⁻⁵². -/
def f64EPSILON : ℚ := 1 / 2 ^ 52

/-- The `has_converged` closure of `find_bracketed`:
`(x1 - x2).abs() <= event.epoch_precision().to_seconds()`. -/
def hasConverged (eps : ℚ) (x1 x2 : FP) : Bool :=
  fle (fabs (fsub x1 x2)) (some eps)

/-- The `arrange` closure of `find_bracketed`:
`if ya.abs() > yb.abs() { (a, ya, b, yb) } else { (b, yb, a, ya) }`. -/
def arrange (a ya b yb : FP) : FP × FP × FP × FP :=
  if fgt (fabs ya) (fabs yb) then (a, ya, b, yb) else (b, yb, a, ya)

/-- The mutable state of the Brent iteration
(`xa, xb, xc, xd, ya, yb, yc, flag`), abscissae in elapsed seconds since
`start`. -/
structure BrentSt where
  xa : FP
  xb : FP
  xc : FP
  xd : FP
  ya : FP
  yb : FP
  yc : FP
  flag : Bool

/-- `self.at(xa_e + s * Unit::Second)` for a solver abscissa `s`.  A NaN
abscissa cannot arise from real-valued event evaluations (rational division
is total), and its Rust behaviour would depend on hifitime's f64→Duration
conversion; it is modelled as an interpolation failure and no theorem
depends on that branch. -/
def atOffset {S : Type} (ops : StateOps S) (tr : Traj S) (startE : ℚ) : FP → Except TrajErr S
  | some q => Traj.at ops tr (startE + q)
  | none => .error (.noInterpolationData startE)

/-- The trial point `s` of one Brent iteration: inverse quadratic
interpolation when the three function values are pairwise separated by more
than `f64::EPSILON`, otherwise the secant rule — exactly the source's
expression tree. -/
def brentS0 (st : BrentSt) : FP :=
  if fgt (fabs (fsub st.ya st.yc)) (some f64EPSILON) &&
     fgt (fabs (fsub st.yb st.yc)) (some f64EPSILON) then
    fadd (fadd
      (fdiv (fmul (fmul st.xa st.yb) st.yc) (fmul (fsub st.ya st.yb) (fsub st.ya st.yc)))
      (fdiv (fmul (fmul st.xb st.ya) st.yc) (fmul (fsub st.yb st.ya) (fsub st.yb st.yc))))
      (fdiv (fmul (fmul st.xc st.ya) st.yb) (fmul (fsub st.yc st.ya) (fsub st.yc st.yb)))
  else
    fsub st.xb (fdiv (fmul st.yb (fsub st.xb st.xa)) (fsub st.yb st.ya))

/-- `cond1 || cond2 || cond3 || cond4 || cond5`: the bisection fallback test
of the Brent iteration. -/
def brentBisect (eps : ℚ) (st : BrentSt) (s0 : FP) : Bool :=
  (fgt (fmul (fsub s0 st.xb)
      (fsub s0 (fdiv (fadd (fmul (some 3) st.xa) st.xb) (some 4)))) (some 0)) ||
  (st.flag && fge (fabs (fsub s0 st.xb)) (fdiv (fabs (fsub st.xb st.xc)) (some 2))) ||
  (!st.flag && fge (fabs (fsub s0 st.xb)) (fdiv (fabs (fsub st.xc st.xd)) (some 2))) ||
  (st.flag && hasConverged eps st.xb st.xc) ||
  (!st.flag && hasConverged eps st.xc st.xd)

/-- The tail of one Brent iteration after the convergence checks: evaluate
the trial point `s1` (`let next_try = self.at(xa_e + s * Unit::Second)?`),
test the sign `ya * ys < 0.0`, re-evaluate the retained endpoint, `arrange`,
and hand the updated state (with `xd = xc; xc = xb; yc = yb` and the new
flag) to the continuation `k` — the next loop iteration.  The continuation
factoring is a pure refactor of the source's loop tail, shared by the two
sign branches. -/
def brentStep {S : Type} (ops : StateOps S) (tr : Traj S) (ev : S → FP)
    (startE : ℚ) (st : BrentSt) (s1 : FP) (fl : Bool)
    (k : BrentSt → Except TrajErr S) : Except TrajErr S :=
  match atOffset ops tr startE s1 with
  | .error er => .error er
  | .ok nextTry =>
    let ys := ev nextTry
    if flt (fmul st.ya ys) (some 0) then
      match atOffset ops tr startE st.xa with
      | .error er => .error er
      | .ok nt2 =>
        let r := arrange st.xa (ev nt2) s1 ys
        k ⟨r.1, r.2.2.1, st.xb, st.xc, r.2.1, r.2.2.2, st.yb, fl⟩
    else
      match atOffset ops tr startE st.xb with
      | .error er => .error er
      | .ok nt2 =>
        let r := arrange s1 ys st.xb (ev nt2)
        k ⟨r.1, r.2.2.1, st.xb, st.xc, r.2.1, r.2.2.2, st.yb, fl⟩

/-- The loop of `Traj::find_bracketed`, one unit of fuel per iteration;
exhausted fuel is the `for _ in 0..max_iter` falling through to
`MaxIterReached`. -/
def brentLoop {S : Type} (ops : StateOps S) (tr : Traj S) (ev : S → FP)
    (vp eps startE endE : ℚ) : Nat → BrentSt → Except TrajErr S
  | 0, _ => .error .maxIterReached
  | fuel + 1, st =>
    if flt (fabs st.ya) (some (qabs vp)) then atOffset ops tr startE st.xa
    else if flt (fabs st.yb) (some (qabs vp)) then atOffset ops tr startE st.xb
    else if hasConverged eps st.xa st.xb then .error (.eventNotFound startE endE)
    else
      let s0 := brentS0 st
      let bis := brentBisect eps st s0
      let s1 := if bis then fdiv (fadd st.xa st.xb) (some 2) else s0
      brentStep ops tr ev startE st s1 bis
        (brentLoop ops tr ev vp eps startE endE fuel)

/-- `Traj::find_bracketed`: endpoint evaluations (errors from `at`
propagating via `?`), immediate endpoint return when an endpoint evaluation
is already within `value_precision().abs()`, then up to `max_iter = 50`
Brent iterations starting from `xa = 0`, `xb = (end - start).to_seconds()`,
`(xc, yc, xd) = (xa, ya, xa)`, `flag = true`. -/
def findBracketed {S : Type} (ops : StateOps S) (tr : Traj S) (ev : S → FP)
    (vp eps : ℚ) (startE endE : ℚ) : Except TrajErr S :=
  match Traj.at ops tr startE with
  | .error er => .error er
  | .ok sa =>
    match Traj.at ops tr endE with
    | .error er => .error er
    | .ok sb =>
      if fle (fabs (ev sa)) (some (qabs vp)) then Traj.at ops tr startE
      else if fle (fabs (ev sb)) (some (qabs vp)) then Traj.at ops tr endE
      else brentLoop ops tr ev vp eps startE endE 50
        ⟨some 0, some (endE - startE), some 0, some 0, ev sa, ev sb, ev sa, true⟩

/-- `qabs` agrees with the mathematical absolute value. -/
theorem qabs_eq_abs (q : ℚ) : qabs q = |q| := by
  unfold qabs
  split_ifs with h
  · exact (abs_of_neg h).symm
  · exact (abs_of_nonneg (not_lt.mp h)).symm

/-- NaN is absorbing for `abs`. -/
theorem fabs_none : fabs none = none := rfl

/-- Any `<` comparison with NaN on the left is false. -/
theorem flt_none_left (y : FP) : flt none y = false := by cases y <;> rfl

/-- Any `<=` comparison with NaN on the left is false. -/
theorem fle_none_left (y : FP) : fle none y = false := by cases y <;> rfl

/-- NaN is absorbing for multiplication (left). -/
theorem fmul_none_left (y : FP) : fmul none y = none := by cases y <;> rfl

/-- NaN is absorbing for multiplication (right). -/
theorem fmul_none_right (x : FP) : fmul x none = none := by cases x <;> rfl

/-- NaN is absorbing for subtraction (right). -/
theorem fsub_none_right (x : FP) : fsub x none = none := by cases x <;> rfl

/-- `arrange` on two NaN ordinates takes the else branch (NaN comparisons
are false): it returns `(b, yb, a, ya)`. -/
theorem arrange_nan_nan (a b : FP) : arrange a none b none = (b, none, a, none) := by
  simp [arrange, fabs_none, fgt, flt_none_left]

/-- With a NaN `ya` and an everywhere-NaN event, the step tail can only
produce `Ok` through its continuation, whose state again has NaN ordinates. -/
theorem brentStep_nan_ne_ok {S : Type} (ops : StateOps S) (tr : Traj S)
    (startE : ℚ) (st : BrentSt) (s1 : FP) (fl : Bool)
    (k : BrentSt → Except TrajErr S)
    (hya : st.ya = none)
    (hk : ∀ st' : BrentSt, st'.ya = none → st'.yb = none → ∀ s : S, k st' ≠ .ok s)
    (s : S) : brentStep ops tr (fun _ => none) startE st s1 fl k ≠ .ok s := by
  intro h
  rw [brentStep, hya] at h
  split at h
  · exact absurd h (by simp)
  · simp only [fmul_none_left, flt_none_left, Bool.false_eq_true, if_false] at h
    split at h
    · exact absurd h (by simp)
    · rw [arrange_nan_nan] at h
      exact hk _ rfl rfl s h

/-- An event whose every evaluation is NaN can never make the Brent loop
return `Ok`: every NaN comparison is false, so neither convergence return is
reachable. -/
theorem brentLoop_nan_ne_ok {S : Type} (ops : StateOps S) (tr : Traj S)
    (vp eps startE endE : ℚ) :
    ∀ (fuel : Nat) (st : BrentSt), st.ya = none → st.yb = none →
      ∀ s : S, brentLoop ops tr (fun _ => none) vp eps startE endE fuel st ≠ .ok s := by
  intro fuel
  induction fuel with
  | zero =>
    intro st _ _ s h
    simp [brentLoop] at h
  | succ n ih =>
    intro st hya hyb s h
    rw [brentLoop, hya, hyb] at h
    simp only [fabs_none, flt_none_left, Bool.false_eq_true, if_false] at h
    split at h
    · exact absurd h (by simp)
    · exact brentStep_nan_ne_ok ops tr startE st _ _ _ hya
        (fun st' h1 h2 s' => ih st' h1 h2 s') s h

/-- C7 is false on the code: with an event whose evaluations are NaN (here at
a degenerate in-range bracket `start = end = 2 s` on the concrete six-sample
trajectory), `find_bracketed` reports the ordinary non-convergence error
`EventNotFound` — not any distinct arithmetic-failure error, which does not
exist in the error type. -/
theorem C7_counterexample :
    findBracketed wsOps sixTraj (fun _ => none) 1 1 2 2 =
      .error (.eventNotFound 2 2) := by
  have hat : Traj.at wsOps sixTraj 2 = .ok ⟨2, 12⟩ := rfl
  rw [findBracketed, hat]
  simp only [fabs_none, fle_none_left, Bool.false_eq_true, if_false]
  have h22 : (2 : ℚ) - 2 = 0 := by norm_num
  rw [h22, show (50 : Nat) = 49 + 1 from rfl, brentLoop]
  simp only [fabs_none, flt_none_left, Bool.false_eq_true, if_false]
  have hcv : hasConverged 1 (some 0) (some 0) = true := by
    unfold hasConverged
    have h0 : fsub (some 0) (some 0) = some 0 := by
      show some ((0 : ℚ) - 0) = some 0
      norm_num
    rw [h0]
    rfl
  rw [hcv]
  simp

/-- C7 amended: NaN event evaluations are never accepted as a root — all NaN
comparisons are false, so `find_bracketed` can only exit through the ordinary
error paths (`EventNotFound`, `MaxIterReached`, or a propagated `at` failure),
never through `Ok`; no distinct arithmetic-failure error exists. -/
theorem C7_nan_never_ok {S : Type} (ops : StateOps S) (tr : Traj S)
    (vp eps startE endE : ℚ) (s : S) :
    findBracketed ops tr (fun _ => none) vp eps startE endE ≠ .ok s := by
  intro h
  rw [findBracketed] at h
  split at h
  · exact absurd h (by simp)
  · split at h
    · exact absurd h (by simp)
    · simp only [fabs_none, fle_none_left, Bool.false_eq_true, if_false] at h
      exact brentLoop_nan_ne_ok ops tr vp eps startE endE 50 _ rfl rfl s h

/-- Witness for the amended C7 statement at a concrete input. -/
theorem C7_nan_never_ok_witness :
    findBracketed wsOps sixTraj (fun _ => none) 1 1 2 2 ≠ .ok ⟨2, 12⟩ :=
  C7_nan_never_ok wsOps sixTraj 1 1 2 2 ⟨2, 12⟩

/-- Computation rules for the `f64` model on real (non-NaN) operands. -/
theorem fadd_some (a b : ℚ) : fadd (some a) (some b) = some (a + b) := rfl

/-- Subtraction on real operands. -/
theorem fsub_some (a b : ℚ) : fsub (some a) (some b) = some (a - b) := rfl

/-- Multiplication on real operands. -/
theorem fmul_some (a b : ℚ) : fmul (some a) (some b) = some (a * b) := rfl

/-- Division on real operands. -/
theorem fdiv_some (a b : ℚ) : fdiv (some a) (some b) = some (a / b) := rfl

/-- Absolute value on a real operand. -/
theorem fabs_some (a : ℚ) : fabs (some a) = some (qabs a) := rfl

/-- `<` on real operands. -/
theorem flt_some (a b : ℚ) : flt (some a) (some b) = decide (a < b) := rfl

/-- `<=` on real operands. -/
theorem fle_some (a b : ℚ) : fle (some a) (some b) = decide (a ≤ b) := rfl

/-- If `(a - b) * (a - c) ≤ 0` then `a` lies between `b` and `c`. -/
theorem between_of_mul_nonpos {a b c : ℚ} (h : (a - b) * (a - c) ≤ 0) :
    min b c ≤ a ∧ a ≤ max b c := by
  constructor
  · by_contra hc
    rcases lt_min_iff.mp (not_le.mp hc) with ⟨h1, h2⟩
    nlinarith
  · by_contra hc
    rcases max_lt_iff.mp (not_le.mp hc) with ⟨h1, h2⟩
    nlinarith

/-- With every field real, the Brent trial point is a real number (whatever
its value: total rational division stands in for the `f64` formulas). -/
theorem brentS0_some (qa qb qc qd ra rb rc : ℚ) (fl : Bool) :
    ∃ σ : ℚ, brentS0 ⟨some qa, some qb, some qc, some qd, some ra, some rb, some rc, fl⟩ =
      some σ := by
  unfold brentS0
  split_ifs
  · exact ⟨_, rfl⟩
  · exact ⟨_, rfl⟩

/-- Loop invariant of the Brent iteration for a real-valued event on a store
where `at` succeeds on `[start, end]`: all abscissae are real and within
`[0, span]` seconds of `start`, and the ordinates `ya`, `yb` (and `yc`) are
the event's evaluations of the `at`-states at their abscissae. -/
def BrentInv {S : Type} (ops : StateOps S) (tr : Traj S) (ev : S → FP)
    (startE span : ℚ) (st : BrentSt) : Prop :=
  ∃ (qa qb qc qd : ℚ) (sa sb sc : S),
    st.xa = some qa ∧ st.xb = some qb ∧ st.xc = some qc ∧ st.xd = some qd ∧
    0 ≤ qa ∧ qa ≤ span ∧ 0 ≤ qb ∧ qb ≤ span ∧ 0 ≤ qc ∧ qc ≤ span ∧
    Traj.at ops tr (startE + qa) = .ok sa ∧ st.ya = ev sa ∧
    Traj.at ops tr (startE + qb) = .ok sb ∧ st.yb = ev sb ∧
    st.yc = ev sc

/-- The claimed outcome classification of `find_bracketed`: `Ok` only with an
event value within `value_precision().abs()`, otherwise `EventNotFound` or
`MaxIterReached`. -/
def BrentRes {S : Type} (ev : S → FP) (vp startE endE : ℚ)
    (res : Except TrajErr S) : Prop :=
  (∃ s q, res = .ok s ∧ ev s = some q ∧ qabs q ≤ qabs vp) ∨
  res = .error (.eventNotFound startE endE) ∨
  res = .error .maxIterReached

/-- `atOffset` at a real abscissa is `at` at the shifted epoch. -/
theorem atOffset_some {S : Type} (ops : StateOps S) (tr : Traj S) (startE q : ℚ) :
    atOffset ops tr startE (some q) = Traj.at ops tr (startE + q) := rfl

/-- `arrange` when `|ya| > |yb|`. -/
theorem arrange_pos {a ya b yb : FP} (h : fgt (fabs ya) (fabs yb) = true) :
    arrange a ya b yb = (a, ya, b, yb) := by simp [arrange, h]

/-- `arrange` when `|ya| ≤ |yb|` (or any NaN comparison). -/
theorem arrange_neg {a ya b yb : FP} (h : fgt (fabs ya) (fabs yb) = false) :
    arrange a ya b yb = (b, yb, a, ya) := by simp [arrange, h]

/-- Classification of the step tail under the invariant: with real, bounded
abscissae every `at` query succeeds, and both sign branches and both
`arrange` outcomes re-establish the invariant for the continuation. -/
theorem brentStep_classified {S : Type} (ops : StateOps S) (tr : Traj S)
    (ev : S → FP) (vp startE endE : ℚ)
    (hat : ∀ q : ℚ, 0 ≤ q → q ≤ endE - startE →
      ∃ s, Traj.at ops tr (startE + q) = .ok s)
    (hrev : ∀ s : S, ∃ q, ev s = some q)
    (k : BrentSt → Except TrajErr S)
    (hk : ∀ st : BrentSt, BrentInv ops tr ev startE (endE - startE) st →
      BrentRes ev vp startE endE (k st))
    (qa qb qc qd ra rb σ : ℚ) (sa sb : S) (yc0 : FP) (fl0 fl : Bool)
    (hqa0 : 0 ≤ qa) (hqa1 : qa ≤ endE - startE)
    (hqb0 : 0 ≤ qb) (hqb1 : qb ≤ endE - startE)
    (hσa : 0 ≤ σ) (hσb : σ ≤ endE - startE)
    (hata : Traj.at ops tr (startE + qa) = .ok sa) (hra : ev sa = some ra)
    (hatb : Traj.at ops tr (startE + qb) = .ok sb) (hrb : ev sb = some rb) :
    BrentRes ev vp startE endE
      (brentStep ops tr ev startE
        ⟨some qa, some qb, some qc, some qd, some ra, some rb, yc0, fl0⟩ (some σ) fl k) := by
  obtain ⟨nt, hnt⟩ := hat σ hσa hσb
  obtain ⟨rs, hrs⟩ := hrev nt
  rw [brentStep]
  simp only [atOffset_some, hnt, hata, hatb, hrs, hra, hrb, fmul_some, flt_some,
    decide_eq_true_eq]
  by_cases hsg : ra * rs < 0
  · rw [if_pos hsg]
    by_cases harr : qabs rs < qabs ra
    · rw [arrange_pos (by simp [fgt, fabs_some, flt_some, harr])]
      exact hk _ ⟨qa, σ, qb, qc, sa, nt, sb, rfl, rfl, rfl, rfl, hqa0, hqa1, hσa, hσb,
        hqb0, hqb1, hata, hra.symm, hnt, hrs.symm, hrb.symm⟩
    · rw [arrange_neg (by simp [fgt, fabs_some, flt_some, harr])]
      exact hk _ ⟨σ, qa, qb, qc, nt, sa, sb, rfl, rfl, rfl, rfl, hσa, hσb, hqa0, hqa1,
        hqb0, hqb1, hnt, hrs.symm, hata, hra.symm, hrb.symm⟩
  · rw [if_neg hsg]
    by_cases harr : qabs rb < qabs rs
    · rw [arrange_pos (by simp [fgt, fabs_some, flt_some, harr])]
      exact hk _ ⟨σ, qb, qb, qc, nt, sb, sb, rfl, rfl, rfl, rfl, hσa, hσb, hqb0, hqb1,
        hqb0, hqb1, hnt, hrs.symm, hatb, hrb.symm, hrb.symm⟩
    · rw [arrange_neg (by simp [fgt, fabs_some, flt_some, harr])]
      exact hk _ ⟨qb, σ, qb, qc, sb, nt, sb, rfl, rfl, rfl, rfl, hqb0, hqb1, hσa, hσb,
        hqb0, hqb1, hatb, hrb.symm, hnt, hrs.symm, hrb.symm⟩

/-- Main classification of the Brent loop: under the invariant, the loop
returns `Ok` only at an event value within `value_precision().abs()`, and
otherwise only `EventNotFound` or `MaxIterReached`. -/
theorem brentLoop_classified {S : Type} (ops : StateOps S) (tr : Traj S)
    (ev : S → FP) (vp eps startE endE : ℚ)
    (hat : ∀ q : ℚ, 0 ≤ q → q ≤ endE - startE →
      ∃ s, Traj.at ops tr (startE + q) = .ok s)
    (hrev : ∀ s : S, ∃ q, ev s = some q) :
    ∀ (fuel : Nat) (st : BrentSt),
      BrentInv ops tr ev startE (endE - startE) st →
      BrentRes ev vp startE endE (brentLoop ops tr ev vp eps startE endE fuel st) := by
  intro fuel
  induction fuel with
  | zero =>
    intro st _
    right; right; rfl
  | succ n ih =>
    rintro ⟨Xa, Xb, Xc, Xd, Ya, Yb, Yc, Fl⟩
      ⟨qa, qb, qc, qd, sa, sb, sc, hxa, hxb, hxc, hxd, hqa0, hqa1, hqb0, hqb1, hqc0, hqc1,
        hata, hya, hatb, hyb, hyc⟩
    obtain ⟨ra, hra⟩ := hrev sa
    obtain ⟨rb, hrb⟩ := hrev sb
    obtain ⟨rc, hrc⟩ := hrev sc
    dsimp only at hxa hxb hxc hxd hya hyb hyc
    subst hxa hxb hxc hxd
    rw [hra] at hya
    rw [hrb] at hyb
    rw [hrc] at hyc
    subst hya hyb hyc
    rw [brentLoop]
    dsimp only
    simp only [fabs_some, flt_some]
    by_cases h1 : qabs ra < qabs vp
    · rw [if_pos (by simp [h1])]
      exact Or.inl ⟨sa, ra, hata, hra, le_of_lt h1⟩
    · rw [if_neg (by simp [h1])]
      by_cases h2 : qabs rb < qabs vp
      · rw [if_pos (by simp [h2])]
        exact Or.inl ⟨sb, rb, hatb, hrb, le_of_lt h2⟩
      · rw [if_neg (by simp [h2])]
        by_cases h3 : hasConverged eps (some qa) (some qb) = true
        · rw [if_pos h3]
          exact Or.inr (Or.inl rfl)
        · rw [if_neg h3]
          obtain ⟨σ0, hσ0⟩ := brentS0_some qa qb qc qd ra rb rc Fl
          rw [hσ0]
          cases hbis : brentBisect eps
              ⟨some qa, some qb, some qc, some qd, some ra, some rb, some rc, Fl⟩
              (some σ0) with
          | false =>
            rw [if_neg (by simp)]
            have hb5 := hbis
            simp only [brentBisect, Bool.or_eq_false_iff] at hb5
            have hc1 := hb5.1.1.1.1
            simp only [fsub_some, fadd_some, fmul_some, fdiv_some, fgt, flt_some,
              decide_eq_false_iff_not, not_lt] at hc1
            obtain ⟨hmn, hmx⟩ := between_of_mul_nonpos hc1
            have hσa : 0 ≤ σ0 := le_trans (le_min (by linarith) (by linarith)) hmn
            have hσb : σ0 ≤ endE - startE := le_trans hmx (max_le (by linarith) (by linarith))
            exact brentStep_classified ops tr ev vp startE endE hat hrev _ ih
              qa qb qc qd ra rb σ0 sa sb (some rc) Fl false hqa0 hqa1 hqb0 hqb1 hσa hσb
              hata hra hatb hrb
          | true =>
            rw [if_pos rfl]
            rw [fadd_some, fdiv_some]
            exact brentStep_classified ops tr ev vp startE endE hat hrev _ ih
              qa qb qc qd ra rb ((qa + qb) / 2) sa sb (some rc) Fl true hqa0 hqa1 hqb0 hqb1
              (by linarith) (by linarith) hata hra hatb hrb

/-- C6: on a finalized trajectory with at least `INTERPOLATION_SAMPLES`
samples, a bracket inside the stored span, and a real-valued (non-NaN) event
— the spec's own precondition for the solver — `find_bracketed` returns an
endpoint sample immediately when its event value is already within
`value_precision().abs()`; any `Ok(s)` it returns has `|event(s)|` within
`value_precision`; and any error it returns is `EventNotFound` (bracket
collapsed below `epoch_precision` without a crossing) or `MaxIterReached`
(the fixed budget of 50 iterations). -/
theorem C6_find_bracketed_classification {S : Type} (ops : StateOps S)
    (nm : Option String) (s0 : S) (rest : List S) (ev : S → FP)
    (vp eps startE endE : ℚ)
    (hp : (s0 :: rest).Pairwise (fun a b => ops.epoch a < ops.epoch b))
    (h6 : INTERPOLATION_SAMPLES ≤ (s0 :: rest).length)
    (hlo : ops.epoch s0 ≤ startE) (hse : startE ≤ endE)
    (hhi : endE ≤ ops.epoch ((s0 :: rest).getLastD s0))
    (hrev : ∀ s : S, ∃ q, ev s = some q) :
    ∀ sa sb : S, Traj.at ops ⟨nm, s0 :: rest⟩ startE = .ok sa →
      Traj.at ops ⟨nm, s0 :: rest⟩ endE = .ok sb →
      (fle (fabs (ev sa)) (some (qabs vp)) = true →
        findBracketed ops ⟨nm, s0 :: rest⟩ ev vp eps startE endE = .ok sa) ∧
      (fle (fabs (ev sa)) (some (qabs vp)) = false →
        fle (fabs (ev sb)) (some (qabs vp)) = true →
        findBracketed ops ⟨nm, s0 :: rest⟩ ev vp eps startE endE = .ok sb) ∧
      (∀ s : S, findBracketed ops ⟨nm, s0 :: rest⟩ ev vp eps startE endE = .ok s →
        ∃ q, ev s = some q ∧ |q| ≤ |vp|) ∧
      (∀ e : TrajErr,
        findBracketed ops ⟨nm, s0 :: rest⟩ ev vp eps startE endE = .error e →
        e = .eventNotFound startE endE ∨ e = .maxIterReached) := by
  intro sa sb hsa hsb
  have hat : ∀ q : ℚ, 0 ≤ q → q ≤ endE - startE →
      ∃ s, Traj.at ops ⟨nm, s0 :: rest⟩ (startE + q) = .ok s := by
    intro q h0 h1
    exact at_total ops nm s0 rest hp h6 (startE + q) (by linarith) (by linarith)
  have hmain : BrentRes ev vp startE endE
      (findBracketed ops ⟨nm, s0 :: rest⟩ ev vp eps startE endE) := by
    cases hfa : fle (fabs (ev sa)) (some (qabs vp)) with
    | true =>
      obtain ⟨ra, hra⟩ := hrev sa
      rw [hra, fabs_some, fle_some, decide_eq_true_eq] at hfa
      have : findBracketed ops ⟨nm, s0 :: rest⟩ ev vp eps startE endE = .ok sa := by
        simp only [findBracketed, hsa, hsb, hra, fabs_some, fle_some,
          decide_eq_true (by exact hfa), if_true]
      rw [this]
      exact Or.inl ⟨sa, ra, rfl, hra, hfa⟩
    | false =>
      cases hfb : fle (fabs (ev sb)) (some (qabs vp)) with
      | true =>
        obtain ⟨rb, hrb⟩ := hrev sb
        rw [hrb, fabs_some, fle_some, decide_eq_true_eq] at hfb
        have : findBracketed ops ⟨nm, s0 :: rest⟩ ev vp eps startE endE = .ok sb := by
          simp only [findBracketed, hsa, hsb, hfa, Bool.false_eq_true, if_false, hrb,
            fabs_some, fle_some, decide_eq_true (by exact hfb), if_true]
        rw [this]
        exact Or.inl ⟨sb, rb, rfl, hrb, hfb⟩
      | false =>
        have hbl : findBracketed ops ⟨nm, s0 :: rest⟩ ev vp eps startE endE =
            brentLoop ops ⟨nm, s0 :: rest⟩ ev vp eps startE endE 50
              ⟨some 0, some (endE - startE), some 0, some 0, ev sa, ev sb, ev sa, true⟩ := by
          simp only [findBracketed, hsa, hsb, hfa, hfb, Bool.false_eq_true, if_false]
        rw [hbl]
        apply brentLoop_classified ops ⟨nm, s0 :: rest⟩ ev vp eps startE endE hat hrev
        exact ⟨0, endE - startE, 0, 0, sa, sb, sa, rfl, rfl, rfl, rfl, le_refl 0,
          by linarith, by linarith, le_refl _, le_refl 0, by linarith,
          by simpa using hsa, rfl,
          by rw [show startE + (endE - startE) = endE by ring]; exact hsb, rfl, rfl⟩
  refine ⟨?_, ?_, ?_, ?_⟩
  · intro hfle
    simp only [findBracketed, hsa, hsb, hfle, if_true]
  · intro hf1 hf2
    simp only [findBracketed, hsa, hsb, hf1, Bool.false_eq_true, if_false, hf2, if_true]
  · intro s hs
    rcases hmain with ⟨s', q, heq, hq1, hq2⟩ | herr | herr
    · rw [hs] at heq
      obtain rfl : s' = s := (Except.ok.inj heq).symm
      exact ⟨q, hq1, by rw [← qabs_eq_abs, ← qabs_eq_abs]; exact hq2⟩
    · rw [hs] at herr; cases herr
    · rw [hs] at herr; cases herr
  · intro e he
    rcases hmain with ⟨s', q, heq, _, _⟩ | herr | herr
    · rw [he] at heq; cases heq
    · rw [he] at herr
      exact Or.inl (by cases herr; rfl)
    · rw [he] at herr
      exact Or.inr (by cases herr; rfl)

/-- Witness for C6: on the six-sample store with the constantly-zero event
the start endpoint is already within precision and is returned immediately. -/
theorem C6_find_bracketed_classification_witness :
    Traj.at wsOps sixTraj 0 = .ok ⟨0, 10⟩ ∧
      findBracketed wsOps sixTraj (fun _ => some 0) 1 1 0 5 = .ok ⟨0, 10⟩ :=
  ⟨rfl,
   ((C6_find_bracketed_classification wsOps none ⟨0, 10⟩
      [⟨1, 11⟩, ⟨2, 12⟩, ⟨3, 13⟩, ⟨4, 14⟩, ⟨5, 15⟩] (fun _ => some 0) 1 1 0 5
      (by decide) (by decide) (by decide) (by decide) (by decide)
      (fun _ => ⟨0, rfl⟩) ⟨0, 10⟩ ⟨5, 15⟩ rfl rfl).1 rfl)⟩

/-- C10 as stated is false for finalized non-empty stores with fewer than
`INTERPOLATION_SAMPLES` samples: on the finalized 2-sample trajectory
(epochs 0 s and 10 s) with the step grid 0 s, 5 s, 10 s (a 5-second step),
the evaluation at 5 s hits the window-selection usize underflow (cf. C9), so
`self.at(epoch).unwrap()` panics and `find_minmax` does not return `Ok` —
regardless of the event function (here everywhere-NaN). -/
theorem C10_counterexample :
    Traj.findMinmax wsOps shortTraj (fun _ => none) [0, 5, 10] =
      .error .panicked := by rfl
